import Mathlib

/-
Shallow embedding of src/script/ExtractReviews.py.

Modelling conventions:
- Python dicts are modelled as association lists (List (String × α)) kept in
  insertion order, exactly as CPython dicts preserve insertion order.
  Dict construction and item assignment are modelled by dictUpd / pyDict below.
- Fallible Python code is modelled in Except PyErr; an uncaught Python
  exception is an Except.error value that propagates to the caller.
- The while-True pagination loop is modelled with explicit fuel; a result of
  none means the fuel ran out (which never happens in the theorems below,
  where sufficient fuel is supplied explicitly).
- Dates parsed by datetime.strptime(s, "%Y-%m-%d") are modelled as Nat triples
  (year, month, day); chronological comparison of datetime objects is the
  lexicographic comparison of these triples.
- The CPython set used for deduplication iterates in an unspecified order; it
  is modelled by List.dedup (one representative per distinct element). All
  theorems below depend only on the contents, never on this order choice.
-/

/-- JSON-like scalar values occurring in review records. -/
inductive Value where
  | null
  | str (s : String)
  | int (n : Int)
  | bool (b : Bool)
deriving DecidableEq

/-- Python exception classes relevant to ExtractReviews.py. -/
inductive PyErr where
  | typeError
  | valueError
  | keyError
  | requestException
deriving DecidableEq

/-- A calendar date (year, month, day), the model of datetime.date. -/
abbrev Date := Nat × Nat × Nat

/-- Numeric value of a decimal digit character, none for non-digits. -/
def charDigitVal (c : Char) : Option Nat :=
  if 48 ≤ c.toNat ∧ c.toNat ≤ 57 then some (c.toNat - 48) else none

/-- Accumulating decimal parse of a digit list. -/
def digitsToNatAux : List Char → Nat → Option Nat
  | [], acc => some acc
  | c :: cs, acc =>
    match charDigitVal c with
    | some d => digitsToNatAux cs (acc * 10 + d)
    | none => none

/-- Parse a nonempty all-digit character list as a decimal number. -/
def parseDigits (cs : List Char) : Option Nat :=
  if cs.isEmpty then none else digitsToNatAux cs 0

/-- Model of str.split over the separator character, here the dash. -/
def splitDash : List Char → List (List Char)
  | [] => [[]]
  | c :: cs =>
    let rest := splitDash cs
    if c = '-' then [] :: rest
    else
      match rest with
      | [] => [[c]]
      | g :: gs => (c :: g) :: gs

/-- Days in a month, with the Gregorian leap-year rule, as datetime validates. -/
def daysInMonth (y m : Nat) : Nat :=
  if m = 2 then (if y % 4 = 0 ∧ (y % 100 ≠ 0 ∨ y % 400 = 0) then 29 else 28)
  else if m = 4 ∨ m = 6 ∨ m = 9 ∨ m = 11 then 30 else 31

/-- Model of datetime.strptime(s, "%Y-%m-%d").date(): three dash-separated
digit groups, year of at most four digits, month and day of at most two,
validated as a calendar date. Returns none where strptime raises ValueError. -/
def strptimeDate (s : String) : Option Date :=
  match splitDash s.data with
  | [ys, ms, ds] =>
    if ys.length ≤ 4 ∧ ms.length ≤ 2 ∧ ds.length ≤ 2 then
      match parseDigits ys, parseDigits ms, parseDigits ds with
      | some y, some m, some d =>
        if 1 ≤ m ∧ m ≤ 12 ∧ 1 ≤ d ∧ d ≤ daysInMonth y m then some (y, m, d) else none
      | _, _, _ => none
    else none
  | _ => none

/-- Chronological strict comparison of dates: lexicographic on (y, m, d). -/
def dateLtB (a b : Date) : Bool :=
  decide (a.1 < b.1 ∨ (a.1 = b.1 ∧ (a.2.1 < b.2.1 ∨ (a.2.1 = b.2.1 ∧ a.2.2 < b.2.2))))

/-- Lexicographic strict comparison of code-point lists, the model of the
Python string comparison used when sorting review ids. -/
def natLexLt : List Nat → List Nat → Bool
  | _, [] => false
  | [], _ :: _ => true
  | a :: as, b :: bs =>
    if a < b then true else if a = b then natLexLt as bs else false

/-- Code points of a string. -/
def codePoints (s : String) : List Nat := s.data.map Char.toNat

/-- Python string strict less-than: lexicographic on code points. -/
def idLt (a b : String) : Bool := natLexLt (codePoints a) (codePoints b)

/-- Strict comparison of the Python sort key tuple (datetime, id string):
date first (chronological), then id (lexicographic string comparison). -/
def keyLt (a b : Date × String) : Bool :=
  dateLtB a.1 b.1 || (decide (a.1 = b.1) && idLt a.2 b.2)

/-- Reflexive descending comparison of sort keys, a ≥ b as Python orders the
tuples: the negation of the strict less-than. -/
def keyGe (a b : Date × String) : Bool := !(keyLt a b)

/-- Flattened numeric encoding of a sort key. Because the date part has the
fixed width three, the lexicographic order of these flattened sequences
coincides with the Python lexicographic order of the (datetime, id) tuples;
the bridge is proved below (keyLt_enc) and used to derive order facts. -/
def keyEnc (k : Date × String) : List Nat :=
  k.1.1 :: k.1.2.1 :: k.1.2.2 :: codePoints k.2

/-- Model of a Python dict item assignment m[k] = v on an association list:
an existing entry for the key is updated in place, a new key is appended. -/
def dictUpd {α : Type} (m : List (String × α)) (kv : String × α) : List (String × α) :=
  if m.any (fun p => decide (p.1 = kv.1)) then
    m.map (fun p => if p.1 = kv.1 then (p.1, kv.2) else p)
  else m ++ [kv]

/-- Model of Python dict construction from a pair sequence: items are assigned
left to right, so a repeated key keeps its first position with its last value. -/
def pyDict {α : Type} (l : List (String × α)) : List (String × α) := l.foldl dictUpd []

/-- Model of dict.get(k): the value stored for the key, if present. -/
def pyLookup {α : Type} (m : List (String × α)) (k : String) : Option α :=
  (m.find? (fun p => decide (p.1 = k))).map (fun p => p.2)

/-- One criterion entry of a raw review: a criterion name and an optional
rating (none models an absent "rating" key; Value.null models a null one;
both read back as Python None via criteria.get("rating")). -/
structure Criterion where
  criteria : String
  rating : Option Value
deriving DecidableEq

/-- A raw review as returned by the remote service (the fields read by
ExtractReviews.py; the date is the string later passed to strptime). -/
structure RawReview where
  id : Value
  date : String
  score : Value
  scoreText : Value
  title : Value
  text : Value
  criterias : List Criterion
deriving DecidableEq

/-- A flattened review record: a Python dict in insertion order. -/
abbrev FlatReview := List (String × Value)

/-- One page of the reviews endpoint: the results.data list and the
results.nextPaginationToken field. -/
structure Page where
  data : List RawReview
  nextPaginationToken : Option String
deriving DecidableEq

/-- Outcome of one get_reviews call as seen by the pagination loop:
raise models an exception escaping requests.get (network error), nodata
models a falsy result (non-200 response or empty payload), page is a
successfully decoded page. -/
inductive GetResult where
  | raise (e : PyErr)
  | nodata
  | page (p : Page)

/-- Model of flatten_criterias (ExtractReviews.py lines 32-36): build a dict
mapping each criterion name to its rating, later entries overwriting. -/
def flatten_criterias (r : RawReview) : List (String × Value) :=
  pyDict (r.criterias.map (fun c => (c.criteria, c.rating.getD Value.null)))

/-- The six fixed field names of a flattened review. -/
def fixedKeys : List String := ["id", "date", "score", "scoreText", "title", "text"]

/-- The six fixed fields of a flattened review, in the literal order of the
dict display at ExtractReviews.py lines 62-69. -/
def fixedPairs (r : RawReview) : List (String × Value) :=
  [("id", r.id), ("date", Value.str r.date), ("score", r.score),
   ("scoreText", r.scoreText), ("title", r.title), ("text", r.text)]

/-- Model of the flattening of one review (ExtractReviews.py lines 61-71):
the dict display with the six fixed keys followed by the splatted
flatten_criterias dict, all assigned left to right. -/
def flattenReview (r : RawReview) : FlatReview :=
  pyDict (fixedPairs r ++ flatten_criterias r)

/-- Model of remove_duplicates (ExtractReviews.py lines 102-112) and of the
identical expression at line 73: the set of item tuples of the input dicts
(one representative per distinct tuple, in unspecified order, here the order
of first occurrence), each converted back to a dict. -/
def remove_duplicates (reviews : List FlatReview) : List FlatReview :=
  (reviews.dedup).map pyDict

/-- Model of the cutoff list comprehension (ExtractReviews.py line 51):
keep reviews whose parsed date is strictly after the cutoff; a date string
strptime cannot parse raises ValueError at that element. -/
def filterPage (upto : Date) : List RawReview → Except PyErr (List RawReview)
  | [] => .ok []
  | r :: rest =>
    match strptimeDate r.date with
    | none => .error .valueError
    | some d =>
      match filterPage upto rest with
      | .error e => .error e
      | .ok tail => .ok (if dateLtB upto d then r :: tail else tail)

/-- Falsiness of the pagination token: Python treats both None and the empty
string as absent. -/
def tokenAbsent : Option String → Bool
  | none => true
  | some s => decide (s = "")

/-- Model of the while-True pagination loop (ExtractReviews.py lines 42-58).
The remote argument gives the response to a request with a given token. The
loop breaks on a falsy response, filters when a cutoff date is supplied and
breaks when the filtered page is empty, accumulates, and breaks when the
page carries no continuation token. Fuel bounds the number of iterations;
none is returned only when it runs out. -/
def fetchLoop (remote : Option String → GetResult) (upto : Option Date) :
    Nat → Option String → List RawReview → Option (Except PyErr (List RawReview))
  | 0, _, _ => none
  | fuel + 1, tok, acc =>
    match remote tok with
    | .raise e => some (.error e)
    | .nodata => some (.ok acc)
    | .page page =>
      match upto with
      | none =>
        if tokenAbsent page.nextPaginationToken then some (.ok (acc ++ page.data))
        else fetchLoop remote upto fuel page.nextPaginationToken (acc ++ page.data)
      | some d =>
        match filterPage d page.data with
        | .error e => some (.error e)
        | .ok filtered =>
          if filtered.isEmpty then some (.ok acc)
          else if tokenAbsent page.nextPaginationToken then some (.ok (acc ++ filtered))
          else fetchLoop remote upto fuel page.nextPaginationToken (acc ++ filtered)

/-- Model of extract_all_reviews (ExtractReviews.py lines 38-73): run the
pagination loop from an absent token, flatten every accumulated review, and
deduplicate with the set-of-item-tuples expression of line 73. -/
def extract_all_reviews (remote : Option String → GetResult) (upto : Option Date)
    (fuel : Nat) : Option (Except PyErr (List FlatReview)) :=
  (fetchLoop remote upto fuel none []).map
    (fun res => res.map (fun raws => remove_duplicates (raws.map flattenReview)))

/-- Model of the subscript d[k] on a review dict: KeyError when absent. -/
def pyGetItem (d : FlatReview) (k : String) : Except PyErr Value :=
  match d.find? (fun p => decide (p.1 = k)) with
  | some p => .ok p.2
  | none => .error .keyError

/-- Sort key of one record (ExtractReviews.py line 98): the tuple
(strptime(x["date"]), x["id"]). A missing key raises KeyError, a non-string
date raises TypeError inside strptime, an unparseable date raises ValueError,
and a non-string id makes the tuple comparisons of the sort raise TypeError,
which the model charges at key construction. -/
def sortKeyOf (x : FlatReview) : Except PyErr (Date × String) :=
  match pyGetItem x "date" with
  | .error e => .error e
  | .ok (.str ds) =>
    match strptimeDate ds with
    | none => .error .valueError
    | some d =>
      match pyGetItem x "id" with
      | .error e => .error e
      | .ok (.str i) => .ok (d, i)
      | .ok _ => .error .typeError
  | .ok _ => .error .typeError

/-- Key extraction pass of the sort: Python sorted computes the key of every
element up front, raising at the first failing element. -/
def keyedOf : List FlatReview → Except PyErr (List ((Date × String) × FlatReview))
  | [] => .ok []
  | x :: rest =>
    match sortKeyOf x with
    | .error e => .error e
    | .ok k =>
      match keyedOf rest with
      | .error e => .error e
      | .ok tail => .ok ((k, x) :: tail)

/-- Descending order on keyed records used by the reverse sort. -/
def keyGeRel (a b : (Date × String) × FlatReview) : Prop := keyGe a.1 b.1 = true

instance : DecidableRel keyGeRel :=
  fun a b => inferInstanceAs (Decidable (keyGe a.1 b.1 = true))

/-- Model of sorted(l, key=..., reverse=True) (ExtractReviews.py line 98):
compute all keys, then stable-sort descending by key. Python uses a stable
mergesort; a stable sort result is unique, so the stable insertion sort is
an exact model of it. -/
def sortStep (l : List FlatReview) : Except PyErr (List FlatReview) :=
  match keyedOf l with
  | .error e => .error e
  | .ok keyed => .ok ((List.insertionSort keyGeRel keyed).map (fun p => p.2))

/-- Model of the Python expression str + int, which raises TypeError
unconditionally; this is the logging expression of ExtractReviews.py line 96,
evaluated eagerly before logging.debug is entered. -/
def pyStrAddInt (_s : String) (_n : Nat) : Except PyErr String := .error .typeError

/-- One day before a date, with month and year borrow. -/
def dateSub1 : Date → Date
  | (y, m, d) =>
    if 1 < d then (y, m, d - 1)
    else if 1 < m then (y, m - 1, daysInMonth y (m - 1))
    else (y - 1, 12, 31)

/-- Model of datetime.today() - timedelta(days=2), the incremental cutoff. -/
def dateSub2 (d : Date) : Date := dateSub1 (dateSub1 d)

/-- Model of save_app_reviews (ExtractReviews.py lines 75-100). The fs
argument is the current content of the archive file (none when the file does
not exist); remote and today model the environment. The result some (.ok l)
means the run completed and wrote l as the new archive content; some
(.error e) means the run aborted with an uncaught exception e and wrote
nothing; none means the supplied fuel ran out inside the pagination loop. -/
def save_app_reviews (remote : Option String → GetResult) (today : Date)
    (fs : Option (List FlatReview)) (fuel : Nat) : Option (Except PyErr (List FlatReview)) :=
  let existing := fs.getD []
  let upto := dateSub2 today
  let fetched :=
    if existing.length > 0 then extract_all_reviews remote (some upto) fuel
    else extract_all_reviews remote none fuel
  fetched.map (fun res =>
    match res with
    | .error e => .error e
    | .ok reviews =>
      match pyStrAddInt "Count of all reviews " reviews.length with
      | .error e => .error e
      | .ok _ => sortStep (remove_duplicates (existing ++ reviews)))

/-- The characters of the criterion-key marker checked by startswith. -/
def vafChars : List Char := ['v', 'a', 'f']

/-- Model of key.startswith("vaf"). -/
def startsWithVaf (k : String) : Bool := List.isPrefixOf vafChars k.data

/-- Model of criteria_counts[key] = criteria_counts.get(key, 0) + 1. -/
def bumpKey (m : List (String × Nat)) (k : String) : List (String × Nat) :=
  dictUpd m (k, (pyLookup m k).getD 0 + 1)

/-- Inner loop of save_app_review_criterias over the keys of one review. -/
def criteriaStep (m : List (String × Nat)) (r : FlatReview) : List (String × Nat) :=
  (r.map Prod.fst).foldl (fun m k => if startsWithVaf k then bumpKey m k else m) m

/-- Counting pass of save_app_review_criterias (ExtractReviews.py lines
183-188): over all reviews and all their keys, count keys starting with vaf. -/
def criteriaCounts (reviews : List FlatReview) : List (String × Nat) :=
  reviews.foldl criteriaStep []

/-- Model of save_app_review_criterias (ExtractReviews.py lines 163-190):
read the current Reviews file (an absent file is the empty archive) and
recompute the criteria counts from scratch; the result is the content
written to the Criterias file. -/
def save_app_review_criterias (fs : Option (List FlatReview)) : List (String × Nat) :=
  criteriaCounts (fs.getD [])

/-- Outcome of one HTTP request at the transport layer: either a response
with a status code and a decoded JSON body, or a transport error. -/
inductive HttpOutcome where
  | response (status : Nat) (body : Value)
  | transportError
deriving DecidableEq

/-- Model of requests.get: a transport error surfaces as a raised
RequestException, uncaught by ExtractReviews.py. -/
def requestsGet (h : HttpOutcome) : Except PyErr (Nat × Value) :=
  match h with
  | .transportError => .error .requestException
  | .response s b => .ok (s, b)

/-- Model of get_reviews (ExtractReviews.py lines 11-15): the decoded body
on a 200 response, None otherwise; exceptions from requests.get propagate. -/
def get_reviews (h : HttpOutcome) : Except PyErr (Option Value) :=
  match requestsGet h with
  | .error e => .error e
  | .ok (s, b) => .ok (if s = 200 then some b else none)

/-- Model of get_appinfo (ExtractReviews.py lines 17-20), same contract. -/
def get_appinfo (h : HttpOutcome) : Except PyErr (Option Value) :=
  match requestsGet h with
  | .error e => .error e
  | .ok (s, b) => .ok (if s = 200 then some b else none)

/-- Model of get_permissions (ExtractReviews.py lines 22-25), same contract. -/
def get_permissions (h : HttpOutcome) : Except PyErr (Option Value) :=
  match requestsGet h with
  | .error e => .error e
  | .ok (s, b) => .ok (if s = 200 then some b else none)

/-- Model of get_datasafety (ExtractReviews.py lines 27-30), same contract. -/
def get_datasafety (h : HttpOutcome) : Except PyErr (Option Value) :=
  match requestsGet h with
  | .error e => .error e
  | .ok (s, b) => .ok (if s = 200 then some b else none)

/-- Continuation token labelling the page at a given index in the test
chains used for the pagination theorems: a nonempty string whose length
recovers the index. -/
def tokOf (i : Nat) : String := String.mk (List.replicate i 'a')

/-- Page of a chained page sequence at a given index: its data is the given
review list and it carries a continuation token exactly when a further page
exists. Past the end there is no data. -/
def chainPageAt (pages : List (List RawReview)) (i : Nat) : GetResult :=
  match pages[i]? with
  | none => .nodata
  | some d => .page ⟨d, if i + 1 < pages.length then some (tokOf (i + 1)) else none⟩

/-- A remote service serving a chained page sequence: the initial request
(no token) returns page zero, and the token of index i returns page i. -/
def chainRemote (pages : List (List RawReview)) : Option String → GetResult
  | none => chainPageAt pages 0
  | some t => chainPageAt pages t.length

/-- Reference accumulation of the cutoff-filtered pages: concatenate the
filtered pages, stopping at the first page with no surviving review, and
propagating a date-parse error of a page reached by the loop. -/
def cutoffJoin (upto : Date) : List (List RawReview) → Except PyErr (List RawReview)
  | [] => .ok []
  | d :: rest =>
    match filterPage upto d with
    | .error e => .error e
    | .ok f =>
      if f.isEmpty then .ok []
      else
        match cutoffJoin upto rest with
        | .error e => .error e
        | .ok tail => .ok (f ++ tail)

/-- A sample raw review with a given id and date, used as concrete input in
the witness theorems below. -/
def mkRaw (i : String) (d : String) : RawReview :=
  ⟨Value.str i, d, Value.int 5, Value.str "five", Value.str "t", Value.str "b", []⟩

/-- Adjacent-pair descending order of the persisted archive, stated as the
claim states it: both records have sort keys, and the first key is greater
than or equal to the second in the order date-chronological-then-id-
lexicographic. -/
def archPairGe (a b : FlatReview) : Prop :=
  ∃ ka kb, sortKeyOf a = .ok ka ∧ sortKeyOf b = .ok kb ∧
    (dateLtB kb.1 ka.1 = true ∨ (kb.1 = ka.1 ∧ (idLt kb.2 ka.2 = true ∨ kb.2 = ka.2)))

/-- Lexicographic comparison of code lists is transitive. -/
theorem natLexLt_trans : ∀ a b c : List Nat,
    natLexLt a b = true → natLexLt b c = true → natLexLt a c = true := by
  intro a
  induction a with
  | nil =>
    intro b c hab hbc
    cases b with
    | nil => simp [natLexLt] at hab
    | cons y ys =>
      cases c with
      | nil => simp [natLexLt] at hbc
      | cons z zs => simp [natLexLt]
  | cons x xs ih =>
    intro b c hab hbc
    cases b with
    | nil => simp [natLexLt] at hab
    | cons y ys =>
      cases c with
      | nil => simp [natLexLt] at hbc
      | cons z zs =>
        simp only [natLexLt] at hab hbc ⊢
        split_ifs at hab hbc ⊢ with h1 h2 h3 h4 h5 h6
        all_goals simp_all
        all_goals try omega
        exact ih ys zs hab hbc

/-- Lexicographic comparison of code lists is asymmetric. -/
theorem natLexLt_asymm : ∀ a b : List Nat,
    natLexLt a b = true → natLexLt b a = false := by
  intro a
  induction a with
  | nil =>
    intro b hab
    cases b with
    | nil => simp [natLexLt] at hab
    | cons y ys => simp [natLexLt]
  | cons x xs ih =>
    intro b hab
    cases b with
    | nil => simp [natLexLt] at hab
    | cons y ys =>
      simp only [natLexLt] at hab ⊢
      by_cases h1 : x < y
      · have h2 : ¬ y < x := by omega
        have h3 : ¬ y = x := by omega
        simp [h2, h3]
      · by_cases h2 : x = y
        · subst h2
          simp at hab ⊢
          exact ih ys hab
        · simp [h1, h2] at hab

/-- Two code lists neither of which is lexicographically below the other
are equal. -/
theorem natLexLt_eq : ∀ a b : List Nat,
    natLexLt a b = false → natLexLt b a = false → a = b := by
  intro a
  induction a with
  | nil =>
    intro b hab _
    cases b with
    | nil => rfl
    | cons y ys => simp [natLexLt] at hab
  | cons x xs ih =>
    intro b hab hba
    cases b with
    | nil => simp [natLexLt] at hba
    | cons y ys =>
      simp only [natLexLt] at hab hba
      by_cases h1 : x < y
      · simp [h1] at hab
      · by_cases h2 : x = y
        · subst h2
          simp at hab hba
          rw [ih ys hab hba]
        · have h3 : y < x := by omega
          simp [h3] at hba

/-- The tuple comparison of sort keys agrees with the lexicographic
comparison of their flattened encodings. -/
theorem keyLt_enc (a b : Date × String) :
    keyLt a b = natLexLt (keyEnc a) (keyEnc b) := by
  rcases a with ⟨⟨y1, m1, d1⟩, s1⟩
  rcases b with ⟨⟨y2, m2, d2⟩, s2⟩
  simp only [keyLt, dateLtB, idLt, keyEnc, natLexLt]
  by_cases h1 : y1 < y2
  · simp [h1]
  · by_cases h2 : y1 = y2
    · subst h2
      simp only [h1, if_false, if_pos rfl]
      by_cases h3 : m1 < m2
      · simp [h3]
      · by_cases h4 : m1 = m2
        · subst h4
          simp only [h3, if_false, if_pos rfl]
          by_cases h5 : d1 < d2
          · simp [h5]
          · by_cases h6 : d1 = d2
            · subst h6
              simp [h3, h5, Nat.lt_irrefl]
            · simp [h3, h5, h6, Nat.lt_irrefl]
        · simp [h3, h4, Nat.lt_irrefl]
    · simp [h1, h2]

/-- Totality of the descending key order used by the reverse sort. -/
theorem keyGe_total (a b : Date × String) : keyGe a b = true ∨ keyGe b a = true := by
  rcases h : keyLt a b with _ | _
  · exact Or.inl (by simp [keyGe, h])
  · have : keyLt b a = false := by
      rw [keyLt_enc] at h ⊢
      exact natLexLt_asymm _ _ h
    exact Or.inr (by simp [keyGe, this])

/-- Transitivity of the descending key order used by the reverse sort. -/
theorem keyGe_trans (a b c : Date × String) :
    keyGe a b = true → keyGe b c = true → keyGe a c = true := by
  simp only [keyGe, Bool.not_eq_true', keyLt_enc]
  intro hab hbc
  rcases hac : natLexLt (keyEnc a) (keyEnc c) with _ | _
  · rfl
  · exfalso
    rcases hba : natLexLt (keyEnc b) (keyEnc a) with _ | _
    · have henc : keyEnc a = keyEnc b := natLexLt_eq _ _ hab hba
      rw [← henc] at hbc
      rw [hac] at hbc
      simp at hbc
    · have : natLexLt (keyEnc b) (keyEnc c) = true := natLexLt_trans _ _ _ hba hac
      rw [this] at hbc
      simp at hbc


/-- Effect of one dict item assignment on a later lookup: the assigned key
now maps to the assigned value, every other key is untouched. -/
theorem pyLookup_dictUpd {α : Type} (m : List (String × α)) (kv : String × α) (k : String) :
    pyLookup (dictUpd m kv) k = if k = kv.1 then some kv.2 else pyLookup m k := by
  by_cases hmem : m.any (fun p => decide (p.1 = kv.1)) = true
  · have hd : dictUpd m kv = m.map (fun p => if p.1 = kv.1 then (p.1, kv.2) else p) := by
      unfold dictUpd
      rw [if_pos hmem]
    rw [hd]
    unfold pyLookup
    rw [List.find?_map]
    have hcomp : ((fun p => decide (p.1 = k)) ∘ fun p : String × α =>
        if p.1 = kv.1 then (p.1, kv.2) else p) = fun p => decide (p.1 = k) := by
      funext p
      simp only [Function.comp]
      by_cases h : p.1 = kv.1 <;> simp [h]
    rw [hcomp]
    by_cases hk : k = kv.1
    · have hsome : (m.find? (fun p => decide (p.1 = k))).isSome = true := by
        rw [List.find?_isSome]
        obtain ⟨p, hp, hpk⟩ := List.any_eq_true.mp hmem
        refine ⟨p, hp, ?_⟩
        simp only [decide_eq_true_eq] at hpk ⊢
        rw [hpk, hk]
      obtain ⟨p0, hp0⟩ := Option.isSome_iff_exists.mp hsome
      have hp0k : p0.1 = k := by simpa using List.find?_some hp0
      rw [hp0]
      have : p0.1 = kv.1 := by rw [hp0k, hk]
      simp [this, hk]
    · cases hf : m.find? (fun p => decide (p.1 = k)) with
      | none => simp [hk]
      | some p0 =>
        have hp0k : p0.1 = k := by simpa using List.find?_some hf
        have : ¬ p0.1 = kv.1 := by rw [hp0k]; exact hk
        simp [hk, this]
  · have hd : dictUpd m kv = m ++ [kv] := by
      unfold dictUpd
      rw [if_neg hmem]
    rw [hd]
    unfold pyLookup
    rw [List.find?_append]
    by_cases hk : k = kv.1
    · have hnone : m.find? (fun p => decide (p.1 = k)) = none := by
        rw [List.find?_eq_none]
        intro p hp
        simp only [decide_eq_true_eq]
        intro hpk
        exact hmem (List.any_eq_true.mpr ⟨p, hp, by simp [hpk, hk.symm]⟩)
      rw [hnone, Option.none_or, if_pos hk]
      simp [List.find?, hk.symm]
    · cases hf : m.find? (fun p => decide (p.1 = k)) with
      | none =>
        rw [Option.none_or]
        simp [List.find?, hk, Ne.symm hk]
      | some p0 => simp [hk]

/-- Item assignments whose keys avoid a prefix of the dict leave that prefix
in place. -/
theorem foldl_dictUpd_shift {α : Type} (l : List (String × α)) :
    ∀ (a acc : List (String × α)), (∀ kv ∈ l, ¬ kv.1 ∈ a.map Prod.fst) →
    l.foldl dictUpd (a ++ acc) = a ++ l.foldl dictUpd acc := by
  induction l with
  | nil => intro a acc _; rfl
  | cons kv l ih =>
    intro a acc hdisj
    have hkv : ¬ kv.1 ∈ a.map Prod.fst := hdisj kv (by simp)
    have hmapa : List.map (fun p => if p.1 = kv.1 then (p.1, kv.2) else p) a = a := by
      have h1 : List.map (fun p => if p.1 = kv.1 then (p.1, kv.2) else p) a
          = List.map id a := by
        apply List.map_congr_left
        intro p hp
        have hne : ¬ p.1 = kv.1 := by
          intro hpk
          exact hkv (List.mem_map.mpr ⟨p, hp, hpk⟩)
        simp [hne]
      rw [h1, List.map_id]
    have step : dictUpd (a ++ acc) kv = a ++ dictUpd acc kv := by
      unfold dictUpd
      have ha : a.any (fun p => decide (p.1 = kv.1)) = false := by
        rw [List.any_eq_false]
        intro p hp
        simp only [decide_eq_true_eq]
        intro hpk
        exact hkv (List.mem_map.mpr ⟨p, hp, hpk⟩)
      rw [List.any_append, ha, Bool.false_or]
      by_cases hacc : acc.any (fun p => decide (p.1 = kv.1)) = true
      · rw [if_pos hacc, if_pos hacc, List.map_append, hmapa]
      · rw [if_neg hacc, if_neg hacc, List.append_assoc]
    rw [List.foldl_cons, step, List.foldl_cons]
    exact ih a (dictUpd acc kv) (fun p hp => hdisj p (by simp [hp]))

/-- Rebuilding a dict whose keys are distinct returns it unchanged. -/
theorem pyDict_self {α : Type} (d : List (String × α)) (h : (d.map Prod.fst).Nodup) :
    pyDict d = d := by
  induction d with
  | nil => rfl
  | cons kv d ih =>
    simp only [List.map_cons, List.nodup_cons] at h
    unfold pyDict
    rw [List.foldl_cons]
    have h1 : dictUpd [] kv = [kv] := rfl
    rw [h1]
    have hshift := foldl_dictUpd_shift d [kv] [] (by
      intro p hp
      simp only [List.map_cons, List.map_nil, List.mem_cons, List.not_mem_nil, or_false]
      intro hpk
      exact h.1 (hpk ▸ List.mem_map.mpr ⟨p, hp, rfl⟩))
    simp only [List.singleton_append] at hshift
    rw [hshift]
    have ihd := ih h.2
    unfold pyDict at ihd
    rw [ihd]

/-- Length of a chain token recovers the page index it denotes. -/
theorem tokOf_length (i : Nat) : (tokOf i).length = i := by
  simp [tokOf, String.length]

/-- Chain tokens of positive index are not the empty string, hence truthy. -/
theorem tokOf_ne_empty (i : Nat) : tokOf (i + 1) ≠ "" := by
  intro h
  have h0 : (tokOf (i + 1)).length = 0 := by rw [h]; rfl
  rw [tokOf_length] at h0
  omega

/-- The chained remote answers the token of index i with page i. -/
theorem chainRemote_at (pages : List (List RawReview)) (i : Nat) :
    chainRemote pages (if i = 0 then none else some (tokOf i)) = chainPageAt pages i := by
  by_cases h : i = 0
  · subst h; simp [chainRemote]
  · simp [h, chainRemote, tokOf_length]

/-- Without a cutoff, the pagination loop started at page i of a chained page
sequence accumulates every remaining page. -/
theorem fetchLoop_chain_none (pages : List (List RawReview)) :
    ∀ (n i : Nat) (acc : List RawReview), pages.length - i < n →
    fetchLoop (chainRemote pages) none n (if i = 0 then none else some (tokOf i)) acc
      = some (.ok (acc ++ (pages.drop i).flatten)) := by
  intro n
  induction n with
  | zero => intro i acc h; omega
  | succ n ih =>
    intro i acc h
    rw [fetchLoop]
    rw [chainRemote_at]
    unfold chainPageAt
    cases hget : pages[i]? with
    | none =>
      have hle : pages.length ≤ i := by
        by_contra hc
        rw [List.getElem?_eq_getElem (by omega)] at hget
        cases hget
      rw [List.drop_eq_nil_of_le hle]
      simp
    | some d =>
      have hlt : i < pages.length := by
        by_contra hc
        rw [List.getElem?_eq_none (by omega)] at hget
        cases hget
      have hdrop : pages.drop i = d :: pages.drop (i + 1) := by
        rw [List.drop_eq_getElem_cons hlt]
        congr 1
        rw [List.getElem?_eq_getElem hlt] at hget
        exact Option.some.inj hget
      by_cases hl : i + 1 < pages.length
      · simp only [hl, if_true]
        have habs : tokenAbsent (some (tokOf (i + 1))) = false := by
          simp [tokenAbsent, tokOf_ne_empty i]
        rw [habs]
        simp only [Bool.false_eq_true, if_false]
        have hih := ih (i + 1) (acc ++ d) (by omega)
        have hne : ¬ (i + 1 = 0) := by omega
        rw [if_neg hne] at hih
        rw [hih, hdrop]
        simp
      · simp only [hl, if_false]
        have hnil : pages.drop (i + 1) = [] := List.drop_eq_nil_of_le (by omega)
        rw [hdrop, hnil]
        simp [tokenAbsent]

/-- With a cutoff, the pagination loop started at page i of a chained page
sequence computes exactly the reference accumulation cutoffJoin of the
remaining pages: pages are filtered, consumption stops at the first page
with no surviving review (even though that page carries a token), and a
date-parse error of a reached page propagates. -/
theorem fetchLoop_chain_cutoff (pages : List (List RawReview)) (upto : Date) :
    ∀ (n i : Nat) (acc : List RawReview), pages.length - i < n →
    fetchLoop (chainRemote pages) (some upto) n (if i = 0 then none else some (tokOf i)) acc
      = some (match cutoffJoin upto (pages.drop i) with
              | .error e => .error e
              | .ok t => .ok (acc ++ t)) := by
  intro n
  induction n with
  | zero => intro i acc h; omega
  | succ n ih =>
    intro i acc h
    rw [fetchLoop]
    rw [chainRemote_at]
    unfold chainPageAt
    cases hget : pages[i]? with
    | none =>
      have hle : pages.length ≤ i := by
        by_contra hc
        rw [List.getElem?_eq_getElem (by omega)] at hget
        cases hget
      rw [List.drop_eq_nil_of_le hle]
      simp [cutoffJoin]
    | some d =>
      have hlt : i < pages.length := by
        by_contra hc
        rw [List.getElem?_eq_none (by omega)] at hget
        cases hget
      have hdrop : pages.drop i = d :: pages.drop (i + 1) := by
        rw [List.drop_eq_getElem_cons hlt]
        congr 1
        rw [List.getElem?_eq_getElem hlt] at hget
        exact Option.some.inj hget
      rw [hdrop]
      cases hf : filterPage upto d with
      | error e => simp [cutoffJoin, hf]
      | ok f =>
        by_cases hemp : f.isEmpty
        · simp [cutoffJoin, hf, hemp]
        · simp only [cutoffJoin, hf, hemp, Bool.false_eq_true, if_false]
          by_cases hl : i + 1 < pages.length
          · simp only [hl, if_true]
            have habs : tokenAbsent (some (tokOf (i + 1))) = false := by
              simp [tokenAbsent, tokOf_ne_empty i]
            rw [habs]
            simp only [Bool.false_eq_true, if_false]
            have hih := ih (i + 1) (acc ++ f) (by omega)
            have hne : ¬ (i + 1 = 0) := by omega
            rw [if_neg hne] at hih
            rw [hih]
            cases hcj : cutoffJoin upto (pages.drop (i + 1)) with
            | error e => simp
            | ok t => simp
          · simp only [hl, if_false]
            have hnil : pages.drop (i + 1) = [] := List.drop_eq_nil_of_le (by omega)
            rw [hnil]
            simp [cutoffJoin, tokenAbsent]

/-- Membership in a successfully filtered page: a review survives exactly
when it is in the page and its parsed date is strictly after the cutoff. -/
theorem filterPage_mem (upto : Date) :
    ∀ (reviews out : List RawReview), filterPage upto reviews = .ok out →
    ∀ r, r ∈ out ↔ (r ∈ reviews ∧ ∃ d, strptimeDate r.date = some d ∧ dateLtB upto d = true) := by
  intro reviews
  induction reviews with
  | nil =>
    intro out h r
    simp only [filterPage] at h
    have : out = [] := (Except.ok.inj h).symm
    subst this
    simp
  | cons r0 rest ih =>
    intro out h r
    simp only [filterPage] at h
    cases hp : strptimeDate r0.date with
    | none => rw [hp] at h; cases h
    | some d0 =>
      rw [hp] at h
      cases ht : filterPage upto rest with
      | error e => rw [ht] at h; cases h
      | ok tail =>
        rw [ht] at h
        have hout := Except.ok.inj h
        by_cases hlt : dateLtB upto d0 = true
        · rw [if_pos hlt] at hout
          subst hout
          constructor
          · intro hr
            rcases List.mem_cons.mp hr with hr0 | hrt
            · subst hr0
              exact ⟨List.mem_cons_self _ _, d0, hp, hlt⟩
            · obtain ⟨hmem, hd⟩ := (ih tail ht r).mp hrt
              exact ⟨List.mem_cons_of_mem _ hmem, hd⟩
          · rintro ⟨hmem, d, hpd, hld⟩
            rcases List.mem_cons.mp hmem with hr0 | hrr
            · subst hr0
              exact List.mem_cons_self _ _
            · exact List.mem_cons_of_mem _ ((ih tail ht r).mpr ⟨hrr, d, hpd, hld⟩)
        · rw [if_neg hlt] at hout
          subst hout
          constructor
          · intro hr
            obtain ⟨hmem, hd⟩ := (ih tail ht r).mp hr
            exact ⟨List.mem_cons_of_mem _ hmem, hd⟩
          · rintro ⟨hmem, d, hpd, hld⟩
            rcases List.mem_cons.mp hmem with hr0 | hrr
            · subst hr0
              rw [hp] at hpd
              rw [Option.some.inj hpd] at hlt
              exact absurd hld hlt
            · exact (ih tail ht r).mpr ⟨hrr, d, hpd, hld⟩

/-- A page containing a review whose date string does not parse makes the
cutoff filter raise ValueError. -/
theorem filterPage_error (upto : Date) :
    ∀ (reviews : List RawReview), (∃ r ∈ reviews, strptimeDate r.date = none) →
    filterPage upto reviews = .error .valueError := by
  intro reviews
  induction reviews with
  | nil =>
    rintro ⟨r, hr, _⟩
    cases hr
  | cons r0 rest ih =>
    rintro ⟨r, hr, hrn⟩
    simp only [filterPage]
    cases hp : strptimeDate r0.date with
    | none => rfl
    | some d0 =>
      have hrest : ∃ r ∈ rest, strptimeDate r.date = none := by
        rcases List.mem_cons.mp hr with hr0 | hrr
        · subst hr0
          rw [hp] at hrn
          cases hrn
        · exact ⟨r, hrr, hrn⟩
      rw [ih hrest]

/-- Injectivity of the code-point view of strings. -/
theorem codePoints_inj {a b : String} (h : codePoints a = codePoints b) : a = b := by
  unfold codePoints at h
  have hdata : a.data = b.data :=
    List.map_injective_iff.mpr (fun c1 c2 hc => Char.ext (UInt32.toNat.inj hc)) h
  cases a
  cases b
  congr 1

/-- A key greater than or equal to another in the descending sort order is
either strictly greater on the date, or has the same date and an id that is
lexicographically greater or equal. -/
theorem keyGe_explicit (ka kb : Date × String) (h : keyGe ka kb = true) :
    dateLtB kb.1 ka.1 = true ∨ (kb.1 = ka.1 ∧ (idLt kb.2 ka.2 = true ∨ kb.2 = ka.2)) := by
  have hlt : keyLt ka kb = false := by
    rw [keyGe, Bool.not_eq_true'] at h
    exact h
  rcases hba : keyLt kb ka with _ | _
  · rw [keyLt_enc] at hlt hba
    have henc : keyEnc ka = keyEnc kb := natLexLt_eq _ _ hlt hba
    rcases ka with ⟨⟨y1, m1, d1⟩, s1⟩
    rcases kb with ⟨⟨y2, m2, d2⟩, s2⟩
    simp only [keyEnc, List.cons.injEq] at henc
    obtain ⟨hy, hm, hd, hcp⟩ := henc
    have hs : s1 = s2 := codePoints_inj hcp
    right
    refine ⟨?_, Or.inr hs.symm⟩
    simp [hy, hm, hd]
  · have hba2 : (dateLtB kb.1 ka.1 || (decide (kb.1 = ka.1) && idLt kb.2 ka.2)) = true := by
      rw [← keyLt]
      exact hba
    rcases (by simpa using hba2 :
        dateLtB kb.1 ka.1 = true ∨ (kb.1 = ka.1 ∧ idLt kb.2 ka.2 = true)) with hdl | ⟨heq, hidlt⟩
    · exact Or.inl hdl
    · exact Or.inr ⟨heq, Or.inl hidlt⟩

/-- Keys computed by the key extraction pass belong to their records. -/
theorem keyedOf_ok_mem : ∀ (l : List FlatReview) (keyed),
    keyedOf l = .ok keyed → ∀ p ∈ keyed, sortKeyOf p.2 = .ok p.1 := by
  intro l
  induction l with
  | nil =>
    intro keyed h p hp
    have : keyed = ([] : List ((Date × String) × FlatReview)) := (Except.ok.inj h).symm
    subst this
    cases hp
  | cons x rest ih =>
    intro keyed h p hp
    simp only [keyedOf] at h
    cases hk : sortKeyOf x with
    | error e => rw [hk] at h; cases h
    | ok k =>
      rw [hk] at h
      cases ht : keyedOf rest with
      | error e => rw [ht] at h; cases h
      | ok tail =>
        rw [ht] at h
        have : (k, x) :: tail = keyed := Except.ok.inj h
        subst this
        rcases List.mem_cons.mp hp with hp0 | hpt
        · subst hp0
          exact hk
        · exact ih tail ht p hpt

/-- When every record has string date and id entries but some record's date
string does not parse, the key extraction pass raises ValueError. -/
theorem keyedOf_error (l : List FlatReview)
    (hall : ∀ x ∈ l, ∃ s, pyGetItem x "date" = .ok (Value.str s) ∧
      ∃ i, pyGetItem x "id" = .ok (Value.str i))
    (hbad : ∃ x ∈ l, ∃ s, pyGetItem x "date" = .ok (Value.str s) ∧ strptimeDate s = none) :
    keyedOf l = .error .valueError := by
  induction l with
  | nil =>
    obtain ⟨x, hx, _⟩ := hbad
    cases hx
  | cons x0 rest ih =>
    obtain ⟨s0, hdate0, i0, hid0⟩ := hall x0 (List.mem_cons_self _ _)
    simp only [keyedOf]
    cases hp : strptimeDate s0 with
    | none =>
      have hkey : sortKeyOf x0 = .error .valueError := by
        unfold sortKeyOf
        rw [hdate0]
        simp only [hp]
      rw [hkey]
    | some d0 =>
      have hkey : sortKeyOf x0 = .ok (d0, i0) := by
        unfold sortKeyOf
        rw [hdate0]
        simp only [hp, hid0]
      rw [hkey]
      have hbadrest : ∃ x ∈ rest, ∃ s, pyGetItem x "date" = .ok (Value.str s) ∧
          strptimeDate s = none := by
        obtain ⟨x, hx, s, hds, hsn⟩ := hbad
        rcases List.mem_cons.mp hx with hx0 | hxr
        · subst hx0
          rw [hdate0] at hds
          have : Value.str s0 = Value.str s := Except.ok.inj hds
          have hs : s0 = s := Value.str.inj this
          rw [← hs] at hsn
          rw [hp] at hsn
          cases hsn
        · exact ⟨x, hxr, s, hds, hsn⟩
      rw [ih (fun x hx => hall x (List.mem_cons_of_mem _ hx)) hbadrest]

/-- Lookup through a sequence of item assignments: the last assignment of the
key wins, falling back to the initial dict. -/
theorem pyLookup_foldl {α : Type} (l : List (String × α)) :
    ∀ (acc : List (String × α)) (k : String),
    pyLookup (l.foldl dictUpd acc) k =
      ((l.reverse.find? (fun p => decide (p.1 = k))).map (fun p => p.2)).or (pyLookup acc k) := by
  induction l with
  | nil => intro acc k; simp
  | cons kv l ih =>
    intro acc k
    rw [List.foldl_cons, ih (dictUpd acc kv) k, List.reverse_cons, List.find?_append]
    rw [pyLookup_dictUpd]
    cases hrev : List.find? (fun p => decide (p.1 = k)) l.reverse with
    | some q => simp
    | none =>
      by_cases hk : k = kv.1
      · simp [List.find?, hk.symm]
      · simp [List.find?, hk, Ne.symm hk]

/-- Lookup in a dict built from a pair sequence returns the value of the last
pair carrying the key. -/
theorem pyLookup_pyDict {α : Type} (l : List (String × α)) (k : String) :
    pyLookup (pyDict l) k =
      (l.reverse.find? (fun p => decide (p.1 = k))).map (fun p => p.2) := by
  have h := pyLookup_foldl l [] k
  unfold pyDict
  simpa [pyLookup] using h

/-- One item assignment preserves distinctness of the keys. -/
theorem dictUpd_keys_nodup {α : Type} (m : List (String × α)) (kv : String × α)
    (h : (m.map Prod.fst).Nodup) : ((dictUpd m kv).map Prod.fst).Nodup := by
  unfold dictUpd
  by_cases hmem : m.any (fun p => decide (p.1 = kv.1)) = true
  · rw [if_pos hmem]
    have hkeys : (m.map (fun p => if p.1 = kv.1 then (p.1, kv.2) else p)).map Prod.fst
        = m.map Prod.fst := by
      rw [List.map_map]
      apply List.map_congr_left
      intro p _
      by_cases hp : p.1 = kv.1 <;> simp [hp]
    rw [hkeys]
    exact h
  · rw [if_neg hmem]
    rw [List.map_append]
    have hnotin : ¬ kv.1 ∈ m.map Prod.fst := by
      intro hin
      obtain ⟨p, hp, hpk⟩ := List.mem_map.mp hin
      exact hmem (List.any_eq_true.mpr ⟨p, hp, by simp [hpk]⟩)
    have hperm : ((m.map Prod.fst) ++ [kv.1]).Nodup ↔ (kv.1 :: m.map Prod.fst).Nodup :=
      (List.perm_append_singleton _ _).nodup_iff
    rw [show ([kv] : List (String × α)).map Prod.fst = [kv.1] from rfl]
    exact hperm.mpr (List.nodup_cons.mpr ⟨hnotin, h⟩)

/-- Keys of a constructed dict are distinct. -/
theorem pyDict_keys_nodup {α : Type} (l : List (String × α)) :
    ((pyDict l).map Prod.fst).Nodup := by
  suffices h : ∀ acc : List (String × α), (acc.map Prod.fst).Nodup →
      ((l.foldl dictUpd acc).map Prod.fst).Nodup from h [] (by simp)
  induction l with
  | nil => intro acc h; exact h
  | cons kv l ih =>
    intro acc h
    rw [List.foldl_cons]
    exact ih _ (dictUpd_keys_nodup _ _ h)

/-- Dict construction is idempotent. -/
theorem pyDict_idem {α : Type} (l : List (String × α)) : pyDict (pyDict l) = pyDict l :=
  pyDict_self _ (pyDict_keys_nodup l)

/-- Building a dict from a prefix with distinct keys followed by pairs whose
keys avoid the prefix keeps the prefix in place. -/
theorem pyDict_append_disjoint {α : Type} (a b : List (String × α))
    (ha : (a.map Prod.fst).Nodup) (hd : ∀ kv ∈ b, ¬ kv.1 ∈ a.map Prod.fst) :
    pyDict (a ++ b) = a ++ pyDict b := by
  unfold pyDict
  rw [List.foldl_append]
  rw [show List.foldl dictUpd [] a = a from pyDict_self a ha]
  have h := foldl_dictUpd_shift b a [] hd
  simpa using h

/-- On inputs whose records have distinct keys, remove_duplicates is exactly
the distinct-representative selection on item tuples. -/
theorem remove_duplicates_eq_dedup (l : List FlatReview)
    (h : ∀ d ∈ l, ((d.map Prod.fst).Nodup)) :
    remove_duplicates l = l.dedup := by
  unfold remove_duplicates
  have hself : ∀ d ∈ l.dedup, pyDict d = id d :=
    fun d hd => pyDict_self d (h d (List.mem_dedup.mp hd))
  rw [List.map_congr_left hself, List.map_id]

/-- An item assignment introduces no key beyond the old keys and the
assigned key. -/
theorem dictUpd_keys_subset {α : Type} (m : List (String × α)) (kv0 : String × α)
    (p : String × α) (hp : p ∈ dictUpd m kv0) : p.1 ∈ m.map Prod.fst ∨ p.1 = kv0.1 := by
  unfold dictUpd at hp
  by_cases hmem : m.any (fun q => decide (q.1 = kv0.1)) = true
  · rw [if_pos hmem] at hp
    obtain ⟨q, hq, hqp⟩ := List.mem_map.mp hp
    by_cases hq1 : q.1 = kv0.1
    · rw [if_pos hq1] at hqp
      right
      rw [← hqp]
      exact hq1
    · rw [if_neg hq1] at hqp
      left
      rw [← hqp]
      exact List.mem_map.mpr ⟨q, hq, rfl⟩
  · rw [if_neg hmem] at hp
    rcases List.mem_append.mp hp with hm | hone
    · exact Or.inl (List.mem_map.mpr ⟨p, hm, rfl⟩)
    · right
      rw [List.mem_singleton.mp hone]

/-- Every key of a constructed dict comes from the input pair sequence. -/
theorem pyDict_keys_subset {α : Type} (l : List (String × α)) :
    ∀ p ∈ pyDict l, p.1 ∈ l.map Prod.fst := by
  suffices h : ∀ acc : List (String × α), ∀ p ∈ l.foldl dictUpd acc,
      p.1 ∈ acc.map Prod.fst ∨ p.1 ∈ l.map Prod.fst by
    intro p hp
    rcases h [] p hp with hacc | hl
    · cases hacc
    · exact hl
  induction l with
  | nil => intro acc p hp; exact Or.inl (List.mem_map.mpr ⟨p, hp, rfl⟩)
  | cons kv l ih =>
    intro acc p hp
    rw [List.foldl_cons] at hp
    rcases ih (dictUpd acc kv) p hp with hacc | hl
    · obtain ⟨q, hq, hqp⟩ := List.mem_map.mp hacc
      rcases dictUpd_keys_subset acc kv q hq with hold | hnew
      · exact Or.inl (hqp ▸ hold)
      · exact Or.inr (by simp [← hqp, hnew])
    · exact Or.inr (List.mem_cons_of_mem _ hl)

/-- Lookup after a count bump: the bumped key gained one, others unchanged. -/
theorem pyLookup_bumpKey (m : List (String × Nat)) (k0 k : String) :
    pyLookup (bumpKey m k0) k
      = if k = k0 then some ((pyLookup m k0).getD 0 + 1) else pyLookup m k := by
  unfold bumpKey
  rw [pyLookup_dictUpd]

/-- Lookup after the inner key loop of the criteria counter: a key with the
vaf marker occurring in the processed key list is bumped once (the list has
distinct keys), every other key is untouched. -/
theorem vafFold_lookup (ks : List String) :
    ∀ (m : List (String × Nat)) (k : String), ks.Nodup →
    pyLookup (ks.foldl (fun m k => if startsWithVaf k then bumpKey m k else m) m) k
      = if startsWithVaf k = true ∧ k ∈ ks
        then some ((pyLookup m k).getD 0 + 1) else pyLookup m k := by
  induction ks with
  | nil => intro m k _; simp
  | cons k0 ks ih =>
    intro m k hnd
    have hk0 : ¬ k0 ∈ ks := (List.nodup_cons.mp hnd).1
    have hks : ks.Nodup := (List.nodup_cons.mp hnd).2
    rw [List.foldl_cons]
    by_cases hv0 : startsWithVaf k0 = true
    · rw [if_pos hv0, ih (bumpKey m k0) k hks]
      by_cases hk : k = k0
      · subst hk
        rw [if_neg (by intro hand; exact hk0 hand.2)]
        rw [pyLookup_bumpKey, if_pos rfl]
        rw [if_pos ⟨hv0, List.mem_cons_self _ _⟩]
      · rw [pyLookup_bumpKey, if_neg hk]
        by_cases hcond : startsWithVaf k = true ∧ k ∈ ks
        · rw [if_pos hcond, if_pos ⟨hcond.1, List.mem_cons_of_mem _ hcond.2⟩]
        · rw [if_neg hcond, if_neg (by
            rintro ⟨hvk, hmk⟩
            rcases List.mem_cons.mp hmk with h0 | hks2
            · exact hk h0
            · exact hcond ⟨hvk, hks2⟩)]
    · rw [if_neg hv0, ih m k hks]
      by_cases hk : k = k0
      · subst hk
        rw [if_neg (fun hand => hk0 hand.2), if_neg (fun hand => hv0 hand.1)]
      · by_cases hcond : startsWithVaf k = true ∧ k ∈ ks
        · rw [if_pos hcond, if_pos ⟨hcond.1, List.mem_cons_of_mem _ hcond.2⟩]
        · rw [if_neg hcond, if_neg (by
            rintro ⟨hvk, hmk⟩
            rcases List.mem_cons.mp hmk with h0 | hks2
            · exact hk h0
            · exact hcond ⟨hvk, hks2⟩)]

/-- Lookup after the counting pass over a review list started from a running
dict: a vaf-marked key occurring in the reviews gains one count per review
containing it; every other key keeps its running value. -/
theorem criteriaCounts_foldl (rs : List FlatReview) :
    ∀ (m : List (String × Nat)) (k : String), (∀ r ∈ rs, (r.map Prod.fst).Nodup) →
    pyLookup (rs.foldl criteriaStep m) k
      = if startsWithVaf k = true ∧ 0 < rs.countP (fun r => decide (k ∈ r.map Prod.fst))
        then some ((pyLookup m k).getD 0 + rs.countP (fun r => decide (k ∈ r.map Prod.fst)))
        else pyLookup m k := by
  induction rs with
  | nil => intro m k _; simp
  | cons r rs ih =>
    intro m k h
    rw [List.foldl_cons]
    rw [ih (criteriaStep m r) k (fun x hx => h x (List.mem_cons_of_mem _ hx))]
    have hstep : pyLookup (criteriaStep m r) k
        = if startsWithVaf k = true ∧ k ∈ r.map Prod.fst
          then some ((pyLookup m k).getD 0 + 1) else pyLookup m k :=
      vafFold_lookup (r.map Prod.fst) m k (h r (List.mem_cons_self _ _))
    rw [List.countP_cons]
    by_cases hv : startsWithVaf k = true
    · by_cases hmem : k ∈ r.map Prod.fst
      · have hstep2 : pyLookup (criteriaStep m r) k = some ((pyLookup m k).getD 0 + 1) := by
          rw [hstep, if_pos ⟨hv, hmem⟩]
        have hc1 : (if decide (k ∈ r.map Prod.fst) = true then 1 else 0) = 1 := by
          simp [hmem]
        rw [hstep2, hc1]
        by_cases hcpos : 0 < rs.countP (fun r => decide (k ∈ r.map Prod.fst))
        · rw [if_pos ⟨hv, hcpos⟩, if_pos ⟨hv, by omega⟩]
          simp only [Option.getD_some]
          congr 1
          omega
        · rw [if_neg (fun hand => hcpos hand.2), if_pos ⟨hv, by omega⟩]
          have hc0 : rs.countP (fun r => decide (k ∈ r.map Prod.fst)) = 0 := by omega
          rw [hc0]
      · have hstep2 : pyLookup (criteriaStep m r) k = pyLookup m k := by
          rw [hstep, if_neg (fun hand => hmem hand.2)]
        have hc0 : (if decide (k ∈ r.map Prod.fst) = true then 1 else 0) = 0 := by
          simp [hmem]
        rw [hstep2, hc0, Nat.add_zero]
    · have hstep2 : pyLookup (criteriaStep m r) k = pyLookup m k := by
        rw [hstep, if_neg (fun hand => hv hand.1)]
      rw [hstep2, if_neg (fun hand => hv hand.1), if_neg (fun hand => hv hand.1)]

/-- Unfolding of save_app_reviews into its fetch, log, dedup and sort phases. -/
theorem save_app_reviews_unfold (remote : Option String → GetResult) (today : Date)
    (fs : Option (List FlatReview)) (fuel : Nat) :
    save_app_reviews remote today fs fuel =
      (if (fs.getD []).length > 0 then extract_all_reviews remote (some (dateSub2 today)) fuel
       else extract_all_reviews remote none fuel).map
        (fun res =>
          match res with
          | .error e => .error e
          | .ok reviews =>
            match pyStrAddInt "Count of all reviews " reviews.length with
            | .error e => .error e
            | .ok _ => sortStep (remove_duplicates (fs.getD [] ++ reviews))) := rfl

/-- C1: for every app environment (remote behaviour, current date, archive
file state, loop fuel), save_app_reviews never returns a written archive,
and whenever the fetch phase completes normally the run aborts with the
TypeError raised by the str-plus-int logging expression of line 96 — after
fetching, before deduplication, sorting and persistence — so the reviews
archive file is never written or updated. -/
theorem save_app_reviews_always_typeError :
    (∀ (remote : Option String → GetResult) (today : Date)
        (fs : Option (List FlatReview)) (fuel : Nat) (out : List FlatReview),
      save_app_reviews remote today fs fuel ≠ some (.ok out))
    ∧ (∀ (remote : Option String → GetResult) (today : Date)
        (fs : Option (List FlatReview)) (fuel : Nat) (l : List FlatReview),
      (if (fs.getD []).length > 0 then extract_all_reviews remote (some (dateSub2 today)) fuel
       else extract_all_reviews remote none fuel) = some (.ok l) →
      save_app_reviews remote today fs fuel = some (.error .typeError)) := by
  constructor
  · intro remote today fs fuel out h
    rw [save_app_reviews_unfold] at h
    cases hfetch : (if (fs.getD []).length > 0
        then extract_all_reviews remote (some (dateSub2 today)) fuel
        else extract_all_reviews remote none fuel) with
    | none => rw [hfetch] at h; cases h
    | some res =>
      rw [hfetch, Option.map_some'] at h
      have hinj := Option.some.inj h
      cases res with
      | error e => exact Except.noConfusion hinj
      | ok reviews => exact Except.noConfusion hinj
  · intro remote today fs fuel l h
    rw [save_app_reviews_unfold, h, Option.map_some']
    rfl

/-- Witness for C1: a remote whose first request already fails makes the
fetch phase return an empty list, and the sync run still aborts with
TypeError. -/
theorem save_app_reviews_always_typeError_witness :
    extract_all_reviews (fun _ => GetResult.nodata) none 1 = some (.ok [])
    ∧ save_app_reviews (fun _ => GetResult.nodata) (2024, 5, 10) none 1
        = some (.error .typeError) := by
  constructor
  · rfl
  · exact save_app_reviews_always_typeError.2 (fun _ => GetResult.nodata) (2024, 5, 10) none 1 []
      (by rfl)

/-- C3 evaluated at the failing input: an app with no archive yet and a
remote offering one review. The run aborts with the logging TypeError and
persists nothing; a second run in the unchanged state is the identical
computation, so no run ever yields a persisted archive at all. -/
theorem save_app_reviews_run_never_persists :
    save_app_reviews
      (fun tok =>
        match tok with
        | none => GetResult.page ⟨[mkRaw "1" "2024-05-08"], none⟩
        | some _ => GetResult.nodata)
      (2024, 5, 10) none 2 = some (.error .typeError) := rfl

/-- C2 counterexample: two records with equal key/value sets but different
key insertion order are kept as two records by remove_duplicates, although
under the order-independent equality of the claim only one distinct record
exists, so the output size is 2 rather than 1. -/
theorem remove_duplicates_order_sensitive_cex :
    List.Perm [("a", Value.str "1"), ("b", Value.str "2")]
      [("b", Value.str "2"), ("a", Value.str "1")]
    ∧ (remove_duplicates [[("a", Value.str "1"), ("b", Value.str "2")],
        [("b", Value.str "2"), ("a", Value.str "1")]]).length = 2 := by
  exact ⟨by decide, rfl⟩

/-- C2 (amended): deduplication identifies records by their ordered item
tuples — it is sensitive to key insertion order, not the order-independent
key/value-set equality of the claim. On inputs whose records have distinct
keys it returns one representative per distinct record under ordered-tuple
equality, keeps exactly the records of the input, and its output size is
the number of records distinct under that equality. -/
theorem remove_duplicates_distinct_tuples (l : List FlatReview)
    (h : ∀ d ∈ l, (d.map Prod.fst).Nodup) :
    (remove_duplicates l).Nodup
    ∧ (∀ d, d ∈ remove_duplicates l ↔ d ∈ l)
    ∧ (remove_duplicates l).length = l.toFinset.card := by
  rw [remove_duplicates_eq_dedup l h]
  exact ⟨List.nodup_dedup l, fun d => List.mem_dedup, (List.card_toFinset l).symm⟩

/-- Witness for C2: a list with one exact duplicate and one further record
dedups to size 2, the number of its distinct records. -/
theorem remove_duplicates_distinct_tuples_witness :
    (remove_duplicates [[("a", Value.int 1)], [("a", Value.int 1)], [("b", Value.int 2)]]).length
      = 2 :=
  ((remove_duplicates_distinct_tuples
    [[("a", Value.int 1)], [("a", Value.int 1)], [("b", Value.int 2)]] (by decide)).2.2).trans
    (by decide)

/-- C4: with a cutoff date supplied, the page filter keeps exactly the
reviews whose parsed date is strictly after the cutoff — a review dated on
the cutoff or earlier is excluded — and on a page dated one day before, on,
and one day after the cutoff only the last review survives. -/
theorem cutoff_filter_strict (D : Date) :
    (∀ (reviews out : List RawReview), filterPage D reviews = .ok out →
      ∀ r, r ∈ out ↔ (r ∈ reviews ∧ ∃ d, strptimeDate r.date = some d ∧ dateLtB D d = true))
    ∧ filterPage (2024, 5, 10)
        [mkRaw "a" "2024-05-09", mkRaw "b" "2024-05-10", mkRaw "c" "2024-05-11"]
        = .ok [mkRaw "c" "2024-05-11"] :=
  ⟨filterPage_mem D, rfl⟩

/-- Witness for C4: the surviving review of the concrete page indeed has a
parsed date strictly after the cutoff. -/
theorem cutoff_filter_strict_witness :
    ∃ d, strptimeDate (mkRaw "c" "2024-05-11").date = some d
      ∧ dateLtB (2024, 5, 10) d = true :=
  (((cutoff_filter_strict (2024, 5, 10)).1
      [mkRaw "a" "2024-05-09", mkRaw "b" "2024-05-10", mkRaw "c" "2024-05-11"]
      [mkRaw "c" "2024-05-11"] rfl (mkRaw "c" "2024-05-11")).mp (by decide)).2

/-- C5: pagination termination. Without a cutoff the loop consumes a chained
page sequence completely (stopping at the page carrying no continuation
token) and accumulates every page. With a cutoff it computes cutoffJoin:
filtered pages are accumulated and consumption stops at the first page
contributing zero post-filter reviews even though that page carries a
continuation token. A request answered with no data terminates the loop at
once, yielding the reviews accumulated so far rather than raising. -/
theorem pagination_termination :
    (∀ (pages : List (List RawReview)) (fuel : Nat), pages.length < fuel →
      fetchLoop (chainRemote pages) none fuel none [] = some (.ok pages.flatten))
    ∧ (∀ (pages : List (List RawReview)) (upto : Date) (fuel : Nat), pages.length < fuel →
      fetchLoop (chainRemote pages) (some upto) fuel none [] = some (cutoffJoin upto pages))
    ∧ (∀ (remote : Option String → GetResult) (upto : Option Date) (fuel : Nat)
        (tok : Option String) (acc : List RawReview), remote tok = .nodata →
      fetchLoop remote upto (fuel + 1) tok acc = some (.ok acc)) := by
  refine ⟨?_, ?_, ?_⟩
  · intro pages fuel h
    have h0 := fetchLoop_chain_none pages fuel 0 [] (by omega)
    simpa using h0
  · intro pages upto fuel h
    have h0 := fetchLoop_chain_cutoff pages upto fuel 0 [] (by omega)
    rw [if_pos rfl] at h0
    rw [List.drop_zero] at h0
    rw [h0]
    cases hcj : cutoffJoin upto pages with
    | error e => simp
    | ok t => simp
  · intro remote upto fuel tok acc h
    rw [fetchLoop, h]

/-- Witness for C5: a three-page chain with a cutoff stops at the second
page (whose only review is older than the cutoff) despite its continuation
token, and a two-page chain without a cutoff is consumed completely. -/
theorem pagination_termination_witness :
    fetchLoop
      (chainRemote [[mkRaw "a" "2024-05-11"], [mkRaw "b" "2024-05-09"], [mkRaw "c" "2024-05-08"]])
      (some (2024, 5, 10)) 4 none [] = some (.ok [mkRaw "a" "2024-05-11"])
    ∧ fetchLoop (chainRemote [[mkRaw "a" "2024-05-11"], [mkRaw "b" "2024-05-09"]]) none 3 none []
        = some (.ok [mkRaw "a" "2024-05-11", mkRaw "b" "2024-05-09"]) := by
  constructor
  · have h0 := pagination_termination.2.1
      [[mkRaw "a" "2024-05-11"], [mkRaw "b" "2024-05-09"], [mkRaw "c" "2024-05-08"]]
      (2024, 5, 10) 4 (by decide)
    rw [h0]
    rfl
  · have h0 := pagination_termination.1
      [[mkRaw "a" "2024-05-11"], [mkRaw "b" "2024-05-09"]] 3 (by decide)
    rw [h0]
    rfl

/-- C6: any archive produced by the sort step — the exact content written to
the Reviews file at lines 99-100 whenever a write happens — is sorted
descending by the pair (date, id): every adjacent pair a, b satisfies
(a.date, a.id) greater-or-equal (b.date, b.id), with dates compared
chronologically and ids by lexicographic string comparison. -/
theorem persisted_archive_sorted_desc (l out : List FlatReview)
    (h : sortStep l = .ok out) : out.Chain' archPairGe := by
  unfold sortStep at h
  cases hk : keyedOf l with
  | error e => rw [hk] at h; cases h
  | ok keyed =>
    rw [hk] at h
    have hout : (List.insertionSort keyGeRel keyed).map (fun p => p.2) = out :=
      Except.ok.inj h
    have hsorted : (List.insertionSort keyGeRel keyed).Pairwise keyGeRel :=
      @List.sorted_insertionSort _ keyGeRel _
        ⟨fun a b => keyGe_total a.1 b.1⟩
        ⟨fun a b c hab hbc => keyGe_trans a.1 b.1 c.1 hab hbc⟩ keyed
    have hkeys := keyedOf_ok_mem l keyed hk
    have hperm := List.perm_insertionSort keyGeRel keyed
    have hpair : (List.insertionSort keyGeRel keyed).Pairwise
        (fun a b => archPairGe a.2 b.2) := by
      refine List.Pairwise.imp_of_mem ?_ hsorted
      intro a b ha hb hab
      unfold archPairGe
      exact ⟨a.1, b.1, hkeys a (hperm.subset ha), hkeys b (hperm.subset hb),
        keyGe_explicit a.1 b.1 hab⟩
    rw [← hout]
    exact (List.pairwise_map.mpr hpair).chain'

/-- Witness for C6: sorting two concrete records puts the newer date first
and the resulting adjacent pair is in descending key order. -/
theorem persisted_archive_sorted_desc_witness :
    List.Chain' archPairGe
      [[("id", Value.str "2"), ("date", Value.str "2024-05-11")],
       [("id", Value.str "1"), ("date", Value.str "2024-05-10")]] :=
  persisted_archive_sorted_desc
    [[("id", Value.str "1"), ("date", Value.str "2024-05-10")],
     [("id", Value.str "2"), ("date", Value.str "2024-05-11")]]
    [[("id", Value.str "2"), ("date", Value.str "2024-05-11")],
     [("id", Value.str "1"), ("date", Value.str "2024-05-10")]] rfl

/-- C7 counterexample: a network/transport error makes get_reviews raise the
uncaught requests exception instead of returning None, so the operations are
not exception-free. -/
theorem get_reviews_transport_raises_cex :
    get_reviews HttpOutcome.transportError = .error .requestException := rfl

/-- C7 (amended): each of the four fetch operations returns None on every
non-200 response and the decoded body on a 200 response; on a network or
transport error the exception raised by requests.get propagates uncaught to
the caller (the operation raises rather than returning None). -/
theorem fetch_ops_error_contract :
    (∀ (s : Nat) (b : Value), s ≠ 200 →
      get_reviews (.response s b) = .ok none ∧ get_appinfo (.response s b) = .ok none ∧
      get_permissions (.response s b) = .ok none ∧ get_datasafety (.response s b) = .ok none)
    ∧ (∀ b : Value, get_reviews (.response 200 b) = .ok (some b))
    ∧ (get_reviews .transportError = .error .requestException ∧
       get_appinfo .transportError = .error .requestException ∧
       get_permissions .transportError = .error .requestException ∧
       get_datasafety .transportError = .error .requestException) := by
  refine ⟨?_, fun b => rfl, rfl, rfl, rfl, rfl⟩
  intro s b hs
  refine ⟨?_, ?_, ?_, ?_⟩ <;>
    simp [get_reviews, get_appinfo, get_permissions, get_datasafety, requestsGet, hs]

/-- Witness for C7: a 404 response yields None from get_reviews. -/
theorem fetch_ops_error_contract_witness :
    get_reviews (.response 404 Value.null) = .ok none :=
  (fetch_ops_error_contract.1 404 Value.null (by decide)).1

/-- C8 counterexample: a criterion named like a fixed field is not an added
key — it overwrites the fixed field, so the six fixed fields are not always
copied verbatim: here the score field 5 is replaced by the null rating of a
criterion named score. -/
theorem flatten_fixed_field_shadowed_cex :
    pyLookup (flattenReview ⟨Value.str "1", "2024-05-10", Value.int 5, Value.str "five",
        Value.str "t", Value.str "b", [⟨"score", some Value.null⟩]⟩) "score"
      = some Value.null
    ∧ (⟨Value.str "1", "2024-05-10", Value.int 5, Value.str "five",
        Value.str "t", Value.str "b", [⟨"score", some Value.null⟩]⟩ : RawReview).score
      = Value.int 5
    ∧ Value.null ≠ Value.int 5 :=
  ⟨rfl, rfl, by decide⟩

/-- C8 (amended): provided no criterion name collides with one of the six
fixed field names, flattening yields the six fixed fields verbatim, in
order, followed by one entry per distinct criterion name; the entry of a
name carries the rating of its last occurrence (last-write-wins), an absent
or null rating being preserved as null. A criterion named like a fixed
field instead overwrites that field (see the counterexample). -/
theorem flatten_fixed_and_lww (r : RawReview)
    (h : ∀ c ∈ r.criterias, ¬ c.criteria ∈ fixedKeys) :
    flattenReview r = fixedPairs r ++ flatten_criterias r
    ∧ (∀ k, pyLookup (flatten_criterias r) k =
        (r.criterias.reverse.find? (fun c => decide (c.criteria = k))).map
          (fun c => c.rating.getD Value.null)) := by
  constructor
  · unfold flattenReview
    have ha : ((fixedPairs r).map Prod.fst).Nodup := by
      show (["id", "date", "score", "scoreText", "title", "text"] : List String).Nodup
      decide
    have hd : ∀ kv ∈ flatten_criterias r, ¬ kv.1 ∈ (fixedPairs r).map Prod.fst := by
      intro kv hkv hmem
      have h1 := pyDict_keys_subset _ kv hkv
      rw [List.map_map] at h1
      obtain ⟨c, hc, hck⟩ := List.mem_map.mp h1
      apply h c hc
      have hck2 : c.criteria = kv.1 := hck
      rw [hck2]
      exact hmem
    rw [pyDict_append_disjoint _ _ ha hd]
    congr 1
    exact pyDict_idem _
  · intro k
    unfold flatten_criterias
    rw [pyLookup_pyDict]
    rw [← List.map_reverse]
    rw [List.find?_map]
    rw [Option.map_map]
    rfl

/-- Witness for C8: with two occurrences of the same criterion name, the
later (null) rating wins and is preserved as null. -/
theorem flatten_fixed_and_lww_witness :
    pyLookup (flatten_criterias ⟨Value.str "1", "2024-05-10", Value.int 5, Value.str "five",
        Value.str "t", Value.str "b",
        [⟨"vaf_a", some (Value.int 3)⟩, ⟨"vaf_a", none⟩]⟩) "vaf_a" = some Value.null := by
  have h0 := (flatten_fixed_and_lww ⟨Value.str "1", "2024-05-10", Value.int 5, Value.str "five",
      Value.str "t", Value.str "b",
      [⟨"vaf_a", some (Value.int 3)⟩, ⟨"vaf_a", none⟩]⟩ (by decide)).2 "vaf_a"
  rw [h0]
  rfl

/-- C9 counterexample: with a malformed date only in the persisted archive
and a remote returning no data, the sync run aborts with the TypeError of
the logging step — not with a date-parse fault — and the sort step that
would hit the malformed date is never reached. -/
theorem persisted_bad_date_aborts_typeError_cex :
    save_app_reviews (fun _ => GetResult.nodata) (2024, 5, 10)
      (some [[("id", Value.str "1"), ("date", Value.str "not-a-date")]]) 1
      = some (.error .typeError)
    ∧ PyErr.typeError ≠ PyErr.valueError :=
  ⟨rfl, by decide⟩

/-- C9 (amended): a malformed date string in a fetched record is hit by the
cutoff filter when a cutoff is active: the filter raises ValueError, which
propagates unhandled out of the pagination loop and out of save_app_reviews,
aborting the whole run. The standalone sort step likewise propagates
ValueError whenever its records carry string date and id entries and some
date does not parse. A malformed date present only in the persisted file,
however, aborts the run with the logging TypeError instead, the sort step
being unreachable in save_app_reviews (see the counterexample). -/
theorem malformed_date_fault_propagation :
    (∀ (upto : Date) (reviews : List RawReview),
      (∃ r ∈ reviews, strptimeDate r.date = none) →
      filterPage upto reviews = .error .valueError)
    ∧ (∀ l : List FlatReview,
        (∀ x ∈ l, ∃ s, pyGetItem x "date" = .ok (Value.str s) ∧
          ∃ i, pyGetItem x "id" = .ok (Value.str i)) →
        (∃ x ∈ l, ∃ s, pyGetItem x "date" = .ok (Value.str s) ∧ strptimeDate s = none) →
        sortStep l = .error .valueError)
    ∧ save_app_reviews
        (fun _ => GetResult.page ⟨[mkRaw "1" "oops"], none⟩) (2024, 5, 10)
        (some [[("id", Value.str "0"), ("date", Value.str "2024-05-01")]]) 2
        = some (.error .valueError) := by
  refine ⟨filterPage_error, ?_, ?_⟩
  · intro l hall hbad
    unfold sortStep
    rw [keyedOf_error l hall hbad]
  · rfl

/-- Witness for C9: a malformed fetched date makes the filter raise, and a
record with an unparseable date string makes the sort step raise. -/
theorem malformed_date_fault_propagation_witness :
    filterPage (2024, 5, 10) [mkRaw "1" "bad-date-x"] = .error .valueError
    ∧ sortStep [[("id", Value.str "1"), ("date", Value.str "nope")]] = .error .valueError := by
  constructor
  · exact malformed_date_fault_propagation.1 (2024, 5, 10) [mkRaw "1" "bad-date-x"]
      ⟨mkRaw "1" "bad-date-x", List.mem_singleton.mpr rfl, rfl⟩
  · refine malformed_date_fault_propagation.2.1
      [[("id", Value.str "1"), ("date", Value.str "nope")]] ?_ ?_
    · intro x hx
      rw [List.mem_singleton.mp hx]
      exact ⟨"nope", rfl, "1", rfl⟩
    · exact ⟨[("id", Value.str "1"), ("date", Value.str "nope")],
        List.mem_singleton.mpr rfl, "nope", rfl, rfl⟩

/-- C10: save_app_review_criterias recomputes, purely from the current
persisted Reviews file (a missing file counting as an empty archive), a
mapping whose entries are exactly the keys with the vaf marker occurring in
some persisted review, each mapped to the number of persisted reviews
containing that key; every other key is absent from the mapping. -/
theorem criteria_counts_exact (fs : Option (List FlatReview))
    (h : ∀ r ∈ fs.getD [], (r.map Prod.fst).Nodup) (k : String) :
    pyLookup (save_app_review_criterias fs) k
      = if startsWithVaf k = true
            ∧ 0 < (fs.getD []).countP (fun r => decide (k ∈ r.map Prod.fst))
        then some ((fs.getD []).countP (fun r => decide (k ∈ r.map Prod.fst)))
        else none := by
  unfold save_app_review_criterias criteriaCounts
  rw [criteriaCounts_foldl _ [] k h]
  by_cases hcond : startsWithVaf k = true
      ∧ 0 < (fs.getD []).countP (fun r => decide (k ∈ r.map Prod.fst))
  · rw [if_pos hcond, if_pos hcond]
    simp [pyLookup]
  · rw [if_neg hcond, if_neg hcond]
    rfl

/-- Witness for C10: the three-record archive of the spec example, in which
two records contain vaf_clarity and one contains vaf_speed, counts to
vaf_clarity two and vaf_speed one. -/
theorem criteria_counts_exact_witness :
    pyLookup (save_app_review_criterias (some
      [[("id", Value.str "1"), ("vaf_clarity", Value.int 5)],
       [("id", Value.str "2"), ("vaf_clarity", Value.int 4), ("vaf_speed", Value.int 3)],
       [("id", Value.str "3")]])) "vaf_clarity" = some 2
    ∧ pyLookup (save_app_review_criterias (some
      [[("id", Value.str "1"), ("vaf_clarity", Value.int 5)],
       [("id", Value.str "2"), ("vaf_clarity", Value.int 4), ("vaf_speed", Value.int 3)],
       [("id", Value.str "3")]])) "vaf_speed" = some 1 := by
  constructor
  · have h0 := criteria_counts_exact (some
      [[("id", Value.str "1"), ("vaf_clarity", Value.int 5)],
       [("id", Value.str "2"), ("vaf_clarity", Value.int 4), ("vaf_speed", Value.int 3)],
       [("id", Value.str "3")]]) (by decide) "vaf_clarity"
    rw [h0]
    decide
  · have h0 := criteria_counts_exact (some
      [[("id", Value.str "1"), ("vaf_clarity", Value.int 5)],
       [("id", Value.str "2"), ("vaf_clarity", Value.int 4), ("vaf_speed", Value.int 3)],
       [("id", Value.str "3")]]) (by decide) "vaf_speed"
    rw [h0]
    decide
